import Mathlib

/-!
Verification of `src/maximum_value.py` (0-1 knapsack: brute force, memoized
dynamic programming, greedy approximation, and the dispatcher).

Shallow embedding conventions:
* a Python order dict `{'value': v, 'weight': w}` becomes an `Order` record;
  the `ratio` field models the optional `'ratio'` key that
  `maximum_value_greedy_approx` adds to the dict (absent = `none`);
* `value` is a rational (the spec allows any non-negative real, the claims
  only ever use rationals), `weight` and the capacity are naturals;
* `Counter`-based totals (`payload['weight']`, `payload['value']`) are
  modelled as plain sums: for the non-negative entries in scope,
  `Counter.__add__` (which drops non-positive counts, with absent keys
  reading as 0) agrees with ordinary addition;
* Python's `ZeroDivisionError` (reachable in the greedy solver when an order
  of weight 0 survives the weight filter) is modelled by `Option`: `none`
  means the call raises instead of returning.
-/

open List

/-- An order record: the `'value'` and `'weight'` keys of the Python dict,
plus the `'ratio'` key that the greedy solver may add (`none` = key absent). -/
structure Order where
  value : ℚ
  weight : ℕ
  ratio : Option ℚ
deriving DecidableEq

/-- Total weight of a batch of orders (`payload['weight']`). -/
def weightSum (l : List Order) : ℕ := (l.map Order.weight).sum

/-- Total value of a batch of orders (`payload['value']`). -/
def valueSum (l : List Order) : ℚ := (l.map Order.value).sum

/-- `maximum_value_naive` (src lines 21-31): filter out orders that are too
heavy by themselves, then scan every combination of every length, from the
full length down to 1 (`range(len(orders_filtered), 0, -1)` together with
`itertools.combinations`), keeping the best total value whose total weight
respects the limit.  The scan order differs from CPython's only in the
enumeration order of same-length combinations, which cannot affect the
running maximum. -/
def maximum_value_naive (orders : List Order) (W : ℕ) : ℚ :=
  let filtered := orders.filter (fun o => ! decide (o.weight > W))
  let combos :=
    ((List.range' 1 filtered.length).reverse).flatMap
      (fun len => filtered.sublistsLen len)
  combos.foldl
    (fun acc s => if weightSum s ≤ W ∧ acc < valueSum s then valueSum s else acc) 0

/-- `w(i)` (src lines 48-49): weight of the `i`-th order, 1-indexed. -/
def wt (orders : List Order) (i : ℕ) : ℕ :=
  (orders.getD (i - 1) ⟨0, 0, none⟩).weight

/-- `v(i)` (src lines 51-52): value of the `i`-th order, 1-indexed. -/
def vl (orders : List Order) (i : ℕ) : ℚ :=
  (orders.getD (i - 1) ⟨0, 0, none⟩).value

/-- The memo table `value` (src line 54), as a total map from indices to
cell contents; `-1` is the "not yet computed" sentinel. -/
def updT (t : ℕ → ℕ → ℚ) (i j : ℕ) (x : ℚ) : ℕ → ℕ → ℚ :=
  fun a b => if a = i ∧ b = j then x else t a b

/-- The recursive helper `m(i, j)` (src lines 56-70), in state-passing form:
it returns the memo table after the call (Python mutates `value` in place).
Every branch of the Python function assigns `value[i][j]` before returning;
recursive calls happen exactly when the needed cell still holds `-1`.
The budget `j` is a natural: `j` starts at `W ≥ 0` and is only ever lowered
by `w(i) ≤ j`, so Python's `j <= 0` test is `j = 0` here. -/
def mAux (orders : List Order) : ℕ → ℕ → (ℕ → ℕ → ℚ) → (ℕ → ℕ → ℚ)
  | 0, j, t => updT t 0 j 0
  | i + 1, j, t =>
    if j = 0 then updT t (i + 1) j 0
    else
      let t1 := if t i j = -1 then mAux orders i j t else t
      if wt orders (i + 1) > j then updT t1 (i + 1) j (t1 i j)
      else
        let t2 :=
          if t1 i (j - wt orders (i + 1)) = -1 then
            mAux orders i (j - wt orders (i + 1)) t1
          else t1
        updT t2 (i + 1) j
          (max (t2 i j) (t2 i (j - wt orders (i + 1)) + vl orders (i + 1)))

/-- `maximum_value_dynamic_solution_memoized` (src lines 35-74): build the
table initialised to `-1`, run `m(n, W)`, read `value[n][W]`. -/
def maximum_value_dynamic_solution_memoized (orders : List Order) (W : ℕ) : ℚ :=
  mAux orders orders.length W (fun _ _ => -1) orders.length W

/-- `maximum_value` (src lines 7-17): the dispatcher.  The greedy branch for
large inputs (src lines 14-16) is commented out in the source, so every call
delegates to the memoized dynamic-programming solver. -/
def maximum_value (orders : List Order) (W : ℕ) : ℚ :=
  maximum_value_dynamic_solution_memoized orders W

/-- The `'ratio'` entry of an order dict; reading it is only ever done after
the greedy solver has set it (a `getD 0` stands for the absent-key case,
which the control flow never reaches). -/
def ratioOf (o : Order) : ℚ := o.ratio.getD 0

/-- One step of `order.update(ratio=order['value']/order['weight'])`
(src line 92): `none` models the `ZeroDivisionError` raised when
`order['weight']` is `0`. -/
def setRatio (o : Order) : Option Order :=
  if o.weight = 0 then none
  else some { o with ratio := some (o.value / (o.weight : ℚ)) }

/-- The ratio-updating comprehension of src line 92 over a whole list. -/
def setRatios : List Order → Option (List Order)
  | [] => some []
  | o :: rest =>
    match setRatio o, setRatios rest with
    | some o', some rest' => some (o' :: rest')
    | _, _ => none

/-- The sort key of src line 95: descending by `'ratio'`. -/
def ratioGE (a b : Order) : Prop := ratioOf b ≤ ratioOf a

instance instDecRatioGE : DecidableRel ratioGE :=
  fun a b => (inferInstance : Decidable (ratioOf b ≤ ratioOf a))

/-- The accumulation loop of src lines 100-106: starting from the already
chosen orders `acc`, walk the remaining sorted orders; stop once the limit is
met exactly, skip an order that would overflow it, otherwise append it. -/
def greedyLoop (W : ℕ) : List Order → List Order → List Order
  | acc, [] => acc
  | acc, o :: rest =>
    if weightSum acc = W then acc
    else if weightSum acc + o.weight > W then greedyLoop W acc rest
    else greedyLoop W (acc ++ [o]) rest

/-- `maximum_value_greedy_approx` (src lines 80-107), result only (the
in-place mutation of the caller's orders is modelled by `ordersAfterGreedy`).
CPython's `sorted` with `reverse=True` is a stable descending sort; it is
modelled by `List.insertionSort`, which is also stable, and any two stable
sorts of the same list under the same key produce the same output list. -/
def maximum_value_greedy_approx (orders : List Order) (W : ℕ) : Option ℚ :=
  let filtered := orders.filter (fun o => ! decide (o.weight > W))
  if filtered.length = 0 then some 0
  else
    match setRatios filtered with
    | none => none
    | some updated =>
      match List.insertionSort ratioGE updated with
      | [] => some 0
      | first :: rest => some (valueSum (greedyLoop W [first] rest))

/-- The contents of the caller's `orders` list after a call to
`maximum_value_greedy_approx`: the list object itself is never rebound, but
src line 92 mutates, in place, every order dict that survived the weight
filter (those are the same dict objects the caller's list holds).  When no
order survives the filter the function returns at src line 89, before the
mutation.  `none` models the `ZeroDivisionError` raised on a surviving order
of weight 0 (the call then never returns to hand a result back). -/
def ordersAfterGreedy (orders : List Order) (W : ℕ) : Option (List Order) :=
  let filtered := orders.filter (fun o => ! decide (o.weight > W))
  if filtered.length = 0 then some orders
  else
    (orders.foldr
      (fun o acc =>
        match (if decide (o.weight > W) then some o else setRatio o), acc with
        | some o', some rest' => some (o' :: rest')
        | _, _ => none)
      (some []))

/-- The value of `m(i, j)` as a pure recurrence, with the memo table erased:
same branches as `mAux`, reading `value[i-1][...]` through a recursive call.
This is the yardstick the table-passing `mAux` is proved against. -/
def mPure (orders : List Order) : ℕ → ℕ → ℚ
  | 0, _ => 0
  | i + 1, j =>
    if j = 0 then 0
    else if wt orders (i + 1) > j then mPure orders i j
    else
      max (mPure orders i j)
        (mPure orders i (j - wt orders (i + 1)) + vl orders (i + 1))

/-- The memo-check pattern of src lines 62-63 and 68-69: if the needed cell
still holds the sentinel, fill it (and its dependencies) first. -/
def memoFill (orders : List Order) (i j : ℕ) (t : ℕ → ℕ → ℚ) : ℕ → ℕ → ℚ :=
  if t i j = -1 then mAux orders i j t else t

/-- Mathematical specification, not taken from the source: the best total
value over all feasible sub-batches.  `listMax` is the maximum of a list of
non-negative rationals, with floor 0 (the empty batch is always feasible). -/
def listMax (l : List ℚ) : ℚ := l.foldr max 0

/-- The true 0-1 knapsack optimum over every sublist of `l` whose total
weight fits the budget.  Used only as the common yardstick relating the
solvers to each other. -/
def bestValue (l : List Order) (W : ℕ) : ℚ :=
  listMax ((l.sublists.filter (fun s => decide (weightSum s ≤ W))).map valueSum)

/-! ### The memoized solver computes the pure recurrence -/

/-- With no budget left the recurrence yields 0, whatever the row. -/
lemma mPure_budget_zero (orders : List Order) : ∀ i, mPure orders i 0 = 0 := by
  intro i
  cases i <;> simp [mPure]

/-- Every cell of the recurrence is non-negative: the sentinel `-1` can never
collide with a genuinely computed cell value. -/
lemma mPure_nonneg (orders : List Order) : ∀ i j, 0 ≤ mPure orders i j := by
  intro i
  induction i with
  | zero => intro j; simp [mPure]
  | succ i IH =>
    intro j
    by_cases hj : j = 0
    · simp [mPure, hj]
    · by_cases hw : wt orders (i + 1) > j
      · simpa [mPure, hj, hw] using IH j
      · have h1 := IH j
        simp only [mPure, hj, hw, if_false, if_neg hj]
        exact le_trans h1 (le_max_left _ _)

/-- The sentinel never equals a computed cell value. -/
lemma mPure_ne_sentinel (orders : List Order) (i j : ℕ) :
    mPure orders i j ≠ -1 := by
  have h := mPure_nonneg orders i j
  intro hc
  rw [hc] at h
  norm_num at h

/-- Coherence of a memo table: every cell is either still the sentinel or
already holds its final value. -/
def Coh (orders : List Order) (t : ℕ → ℕ → ℚ) : Prop :=
  ∀ a b, t a b = -1 ∨ t a b = mPure orders a b

lemma updT_cell (t : ℕ → ℕ → ℚ) (i j : ℕ) (x : ℚ) : updT t i j x i j = x := by
  simp [updT]

lemma updT_coh {orders : List Order} {t : ℕ → ℕ → ℚ} {i j : ℕ} {x : ℚ}
    (ht : Coh orders t) (hx : x = mPure orders i j) : Coh orders (updT t i j x) := by
  intro a b
  by_cases hab : a = i ∧ b = j
  · right
    simp [updT, hab, hx, hab.1, hab.2]
  · simpa [updT, hab] using ht a b

lemma updT_pres {orders : List Order} {t : ℕ → ℕ → ℚ} {i j : ℕ} {x : ℚ}
    (ht : Coh orders t) (hx : x = mPure orders i j) :
    ∀ a b, t a b ≠ -1 → updT t i j x a b = t a b := by
  intro a b hab
  by_cases h : a = i ∧ b = j
  · obtain ⟨rfl, rfl⟩ := h
    have := (ht a b).resolve_left hab
    simp [updT, hx, this]
  · simp [updT, h]

/-- Unfolding of `mAux` in the base row. -/
lemma mAux_zero (orders : List Order) (j : ℕ) (t : ℕ → ℕ → ℚ) :
    mAux orders 0 j t = updT t 0 j 0 := rfl

/-- Unfolding of `mAux` at an exhausted budget. -/
lemma mAux_budget_zero (orders : List Order) (i : ℕ) (t : ℕ → ℕ → ℚ) :
    mAux orders (i + 1) 0 t = updT t (i + 1) 0 0 := by
  simp [mAux]

/-- Unfolding of `mAux` when the item does not fit. -/
lemma mAux_heavy {orders : List Order} {i j : ℕ} (t : ℕ → ℕ → ℚ)
    (hj : j ≠ 0) (hw : wt orders (i + 1) > j) :
    mAux orders (i + 1) j t =
      updT (memoFill orders i j t) (i + 1) j (memoFill orders i j t i j) := by
  simp [mAux, hj, hw, memoFill]

/-- Unfolding of `mAux` when the item fits. -/
lemma mAux_light {orders : List Order} {i j : ℕ} (t : ℕ → ℕ → ℚ)
    (hj : j ≠ 0) (hw : ¬ wt orders (i + 1) > j) :
    mAux orders (i + 1) j t =
      updT (memoFill orders i (j - wt orders (i + 1)) (memoFill orders i j t))
        (i + 1) j
        (max (memoFill orders i (j - wt orders (i + 1)) (memoFill orders i j t) i j)
          (memoFill orders i (j - wt orders (i + 1)) (memoFill orders i j t) i
              (j - wt orders (i + 1)) +
            vl orders (i + 1))) := by
  simp [mAux, hj, hw, memoFill]

/-- What a memo-check step guarantees, given that the recursive fills at row
`i` behave: the table stays coherent, no computed cell changes, and the
checked cell now holds its final value. -/
lemma memoFill_spec {orders : List Order} {i : ℕ}
    (hIH : ∀ j' t', Coh orders t' →
      Coh orders (mAux orders i j' t') ∧
        (∀ a b, t' a b ≠ -1 → mAux orders i j' t' a b = t' a b) ∧
        mAux orders i j' t' i j' = mPure orders i j')
    (j : ℕ) (t : ℕ → ℕ → ℚ) (ht : Coh orders t) :
    Coh orders (memoFill orders i j t) ∧
      (∀ a b, t a b ≠ -1 → memoFill orders i j t a b = t a b) ∧
      memoFill orders i j t i j = mPure orders i j := by
  by_cases hc : t i j = -1
  · have h := hIH j t ht
    refine ⟨?_, ?_, ?_⟩ <;> simp only [memoFill, if_pos hc]
    · exact h.1
    · exact h.2.1
    · exact h.2.2
  · refine ⟨?_, ?_, ?_⟩ <;> simp only [memoFill, if_neg hc]
    · exact ht
    · intro a b _; trivial
    · exact (ht i j).resolve_left hc

/-- Main invariant of the memoized fill `m(i, j)`: starting from any coherent
table, the call leaves the table coherent, never changes an already computed
cell, and leaves the final value of the recurrence in cell `(i, j)`. -/
lemma mAux_spec (orders : List Order) :
    ∀ i j t, Coh orders t →
      Coh orders (mAux orders i j t) ∧
        (∀ a b, t a b ≠ -1 → mAux orders i j t a b = t a b) ∧
        mAux orders i j t i j = mPure orders i j := by
  intro i
  induction i with
  | zero =>
    intro j t ht
    rw [mAux_zero]
    have hval : (0 : ℚ) = mPure orders 0 j := by simp [mPure]
    exact ⟨updT_coh ht hval, updT_pres ht hval, updT_cell _ _ _ _⟩
  | succ i IH =>
    intro j t ht
    by_cases hj : j = 0
    · subst hj
      rw [mAux_budget_zero]
      have hval : (0 : ℚ) = mPure orders (i + 1) 0 := by
        rw [mPure_budget_zero]
      exact ⟨updT_coh ht hval, updT_pres ht hval, updT_cell _ _ _ _⟩
    · have h1 := memoFill_spec IH j t ht
      by_cases hw : wt orders (i + 1) > j
      · rw [mAux_heavy t hj hw]
        have hval : memoFill orders i j t i j = mPure orders (i + 1) j := by
          rw [h1.2.2]
          simp [mPure, hj, hw]
        refine ⟨updT_coh h1.1 hval, ?_, ?_⟩
        · intro a b hab
          rw [updT_pres h1.1 hval a b fun hne => hab (by rw [← h1.2.1 a b hab, hne])]
          exact h1.2.1 a b hab
        · rw [updT_cell, hval]
      · have h2 := memoFill_spec IH (j - wt orders (i + 1)) (memoFill orders i j t) h1.1
        rw [mAux_light t hj hw]
        have hkeep : memoFill orders i (j - wt orders (i + 1)) (memoFill orders i j t) i j
            = mPure orders i j := by
          rw [h2.2.1 i j (by rw [h1.2.2]; exact mPure_ne_sentinel orders i j), h1.2.2]
        have hval :
            max (memoFill orders i (j - wt orders (i + 1)) (memoFill orders i j t) i j)
              (memoFill orders i (j - wt orders (i + 1)) (memoFill orders i j t) i
                  (j - wt orders (i + 1)) +
                vl orders (i + 1)) = mPure orders (i + 1) j := by
          rw [hkeep, h2.2.2]
          simp [mPure, hj, hw]
        refine ⟨updT_coh h2.1 hval, ?_, ?_⟩
        · intro a b hab
          have hab1 : memoFill orders i j t a b ≠ -1 := by
            rw [h1.2.1 a b hab]; exact hab
          have hab2 :
              memoFill orders i (j - wt orders (i + 1)) (memoFill orders i j t) a b ≠ -1 := by
            rw [h2.2.1 a b hab1]; exact hab1
          rw [updT_pres h2.1 hval a b hab2, h2.2.1 a b hab1, h1.2.1 a b hab]
        · rw [updT_cell, hval]

/-- The memoized solver returns exactly the value of the pure recurrence at
`(n, W)`: the memo table is an implementation device only. -/
lemma memoized_eq_mPure (orders : List Order) (W : ℕ) :
    maximum_value_dynamic_solution_memoized orders W = mPure orders orders.length W :=
  (mAux_spec orders orders.length W (fun _ _ => -1) fun _ _ => Or.inl rfl).2.2

/-! ### The pure recurrence computes the knapsack optimum (positive weights) -/

lemma weightSum_nil : weightSum [] = 0 := rfl

lemma weightSum_cons (o : Order) (l : List Order) :
    weightSum (o :: l) = o.weight + weightSum l := by
  simp [weightSum]

lemma weightSum_append (l₁ l₂ : List Order) :
    weightSum (l₁ ++ l₂) = weightSum l₁ + weightSum l₂ := by
  simp [weightSum]

lemma valueSum_nil : valueSum [] = 0 := rfl

lemma valueSum_append (l₁ l₂ : List Order) :
    valueSum (l₁ ++ l₂) = valueSum l₁ + valueSum l₂ := by
  simp [valueSum]

lemma valueSum_nonneg {s : List Order} (h : ∀ o ∈ s, 0 ≤ o.value) :
    0 ≤ valueSum s := by
  apply List.sum_nonneg
  intro x hx
  obtain ⟨o, ho, rfl⟩ := List.mem_map.mp hx
  exact h o ho

lemma listMax_nil : listMax [] = 0 := rfl

lemma listMax_cons (x : ℚ) (l : List ℚ) : listMax (x :: l) = max x (listMax l) := rfl

lemma listMax_nonneg (l : List ℚ) : 0 ≤ listMax l := by
  induction l with
  | nil => simp [listMax]
  | cons x l IH => exact le_trans IH ((listMax_cons x l) ▸ le_max_right x (listMax l))

lemma le_listMax_of_mem {l : List ℚ} {x : ℚ} (h : x ∈ l) : x ≤ listMax l := by
  induction l with
  | nil => cases h
  | cons y l IH =>
    rw [listMax_cons]
    rcases List.mem_cons.mp h with rfl | h'
    · exact le_max_left _ _
    · exact le_trans (IH h') (le_max_right _ _)

lemma listMax_le {l : List ℚ} {b : ℚ} (hb : 0 ≤ b) (h : ∀ x ∈ l, x ≤ b) :
    listMax l ≤ b := by
  induction l with
  | nil => exact hb
  | cons y l IH =>
    rw [listMax_cons]
    exact max_le (h y (List.mem_cons_self y l)) (IH fun x hx => h x (List.mem_cons_of_mem y hx))

lemma listMax_append (l₁ l₂ : List ℚ) :
    listMax (l₁ ++ l₂) = max (listMax l₁) (listMax l₂) := by
  induction l₁ with
  | nil =>
    simp only [List.nil_append, listMax_nil]
    exact (max_eq_right (listMax_nonneg l₂)).symm
  | cons x l₁ IH =>
    simp only [List.cons_append, listMax_cons, IH, max_assoc]

lemma listMax_map_add {l : List ℚ} {c : ℚ} (hne : l ≠ []) (h0 : ∀ x ∈ l, 0 ≤ x)
    (hc : 0 ≤ c) : listMax (l.map (fun x => x + c)) = listMax l + c := by
  induction l with
  | nil => exact absurd rfl hne
  | cons x l IH =>
    rcases eq_or_ne l [] with rfl | hl
    · simp only [List.map_cons, List.map_nil, listMax_cons, listMax_nil]
      have hx := h0 x (List.mem_cons_self x [])
      rw [max_eq_left (by linarith), max_eq_left hx]
    · have := IH hl fun x hx => h0 x (List.mem_cons_of_mem _ hx)
      simp only [List.map_cons, listMax_cons, this, max_add_add_right]

lemma bestValue_nonneg (l : List Order) (W : ℕ) : 0 ≤ bestValue l W :=
  listMax_nonneg _

/-- Any feasible sub-batch is counted by `bestValue`. -/
lemma valueSum_le_bestValue {l s : List Order} {W : ℕ} (hs : s <+ l)
    (hw : weightSum s ≤ W) : valueSum s ≤ bestValue l W := by
  apply le_listMax_of_mem
  exact List.mem_map.mpr
    ⟨s, List.mem_filter.mpr ⟨List.mem_sublists.mpr hs, by simpa using hw⟩, rfl⟩

/-- `bestValue` is no better than the best feasible sub-batch. -/
lemma bestValue_le {l : List Order} {W : ℕ} {b : ℚ} (hb : 0 ≤ b)
    (h : ∀ s, s <+ l → weightSum s ≤ W → valueSum s ≤ b) : bestValue l W ≤ b := by
  apply listMax_le hb
  intro x hx
  obtain ⟨s, hs, rfl⟩ := List.mem_map.mp hx
  have hs' := List.mem_filter.mp hs
  exact h s (List.mem_sublists.mp hs'.1) (by simpa using hs'.2)

/-- Appending one more order refines the optimum exactly as the knapsack
recurrence says, provided all values are non-negative. -/
lemma bestValue_concat {l : List Order} {a : Order} (hl : ∀ o ∈ l, 0 ≤ o.value)
    (ha : 0 ≤ a.value) (j : ℕ) :
    bestValue (l ++ [a]) j =
      if a.weight > j then bestValue l j
      else max (bestValue l j) (bestValue l (j - a.weight) + a.value) := by
  unfold bestValue
  rw [List.sublists_concat, List.filter_append, List.map_append, listMax_append,
    List.filter_map]
  have hcomp : ∀ s : List Order,
      ((fun s => decide (weightSum s ≤ j)) ∘ fun x => x ++ [a]) s
        = decide (weightSum s + a.weight ≤ j) := by
    intro s
    simp [Function.comp, weightSum_append, weightSum_cons, weightSum_nil]
  by_cases hw : a.weight > j
  · rw [if_pos hw]
    have hnil : (List.sublists l).filter
        ((fun s => decide (weightSum s ≤ j)) ∘ fun x => x ++ [a]) = [] := by
      rw [List.filter_eq_nil_iff]
      intro s _
      rw [hcomp s]
      simp only [decide_eq_true_eq]
      omega
    rw [hnil]
    simp only [List.map_nil, listMax_nil]
    exact max_eq_left (listMax_nonneg _)
  · rw [if_neg hw]
    have hcond : (List.sublists l).filter
          ((fun s => decide (weightSum s ≤ j)) ∘ fun x => x ++ [a])
        = (List.sublists l).filter (fun s => decide (weightSum s ≤ j - a.weight)) := by
      apply List.filter_congr
      intro s _
      rw [hcomp s]
      simp only [decide_eq_true_eq, decide_eq_decide]
      omega
    rw [hcond]
    have hmap : List.map valueSum
          (List.map (fun x => x ++ [a])
            ((List.sublists l).filter (fun s => decide (weightSum s ≤ j - a.weight))))
        = List.map (fun x => x + a.value)
            (List.map valueSum
              ((List.sublists l).filter (fun s => decide (weightSum s ≤ j - a.weight)))) := by
    
      rw [List.map_map, List.map_map]
      apply List.map_congr_left
      intro s _
      simp [Function.comp, valueSum_append, valueSum]
    rw [hmap, listMax_map_add]
    · intro hne
      have : ([] : List Order) ∈
          (List.sublists l).filter (fun s => decide (weightSum s ≤ j - a.weight)) := by
        refine List.mem_filter.mpr ⟨List.mem_sublists.mpr (List.nil_sublist l), ?_⟩
        simp [weightSum_nil]
      rw [List.map_eq_nil_iff] at hne
      rw [hne] at this
      cases this
    · intro x hx
      obtain ⟨s, hsmem, rfl⟩ := List.mem_map.mp hx
      have hs' := List.mem_filter.mp hsmem
      exact valueSum_nonneg fun o ho =>
        hl o ((List.mem_sublists.mp hs'.1).subset ho)
    · exact ha

/-- With positive weights, a zero budget admits only the empty batch. -/
lemma bestValue_budget_zero {l : List Order} (hw : ∀ o ∈ l, 0 < o.weight) :
    bestValue l 0 = 0 := by
  refine le_antisymm (bestValue_le le_rfl ?_) (bestValue_nonneg l 0)
  intro s hs hws
  cases s with
  | nil => simp [valueSum_nil]
  | cons o t =>
    exfalso
    have ho := hw o (hs.subset (List.mem_cons_self o t))
    rw [weightSum_cons] at hws
    omega

/-- Row `i` of the pure recurrence is the knapsack optimum over the first `i`
orders, provided values are non-negative and weights positive. -/
lemma mPure_eq_bestValue_take {orders : List Order}
    (hv : ∀ o ∈ orders, 0 ≤ o.value) (hw : ∀ o ∈ orders, 0 < o.weight) :
    ∀ i, i ≤ orders.length → ∀ j, mPure orders i j = bestValue (orders.take i) j := by
  intro i
  induction i with
  | zero =>
    intro _ j
    rw [List.take_zero]
    simp [mPure, bestValue, listMax, weightSum_nil, valueSum_nil]
  | succ i IH =>
    intro hle j
    have hlt : i < orders.length := hle
    have htake : orders.take (i + 1) = orders.take i ++ [orders[i]] := by
      rw [List.take_succ, List.getElem?_eq_getElem hlt]
      rfl
    have hwa : wt orders (i + 1) = orders[i].weight := by
      show (orders.getD i _).weight = _
      rw [List.getD_eq_getElem orders _ hlt]
    have hva : vl orders (i + 1) = orders[i].value := by
      show (orders.getD i _).value = _
      rw [List.getD_eq_getElem orders _ hlt]
    by_cases hj : j = 0
    · subst hj
      rw [mPure_budget_zero, bestValue_budget_zero]
      intro o ho
      exact hw o (List.take_subset _ _ ho)
    · have hm : mPure orders (i + 1) j =
          if orders[i].weight > j then mPure orders i j
          else
            max (mPure orders i j)
              (mPure orders i (j - orders[i].weight) + orders[i].value) := by
        rw [show mPure orders (i + 1) j =
            if j = 0 then 0
            else if wt orders (i + 1) > j then mPure orders i j
            else
              max (mPure orders i j)
                (mPure orders i (j - wt orders (i + 1)) + vl orders (i + 1)) from rfl]
        rw [if_neg hj, hwa, hva]
      have hcat := bestValue_concat
        (l := orders.take i) (a := orders[i])
        (fun o ho => hv o (List.take_subset _ _ ho))
        (hv _ (List.getElem_mem hlt)) j
      rw [hm, htake, hcat, IH hlt.le j, IH hlt.le (j - orders[i].weight)]

/-- Under the same hypotheses, the memoized solver returns the knapsack
optimum over the whole order list. -/
lemma memoized_eq_bestValue {orders : List Order} (W : ℕ)
    (hv : ∀ o ∈ orders, 0 ≤ o.value) (hw : ∀ o ∈ orders, 0 < o.weight) :
    maximum_value_dynamic_solution_memoized orders W = bestValue orders W := by
  rw [memoized_eq_mPure, mPure_eq_bestValue_take hv hw orders.length le_rfl,
    List.take_length]

/-! ### The naive solver computes the knapsack optimum -/

/-- The running-maximum loop of `maximum_value_naive`: folding the update
step over any batch list computes the maximum of the start value and the
best feasible batch value seen. -/
lemma naiveFold_eq (W : ℕ) :
    ∀ (combos : List (List Order)) (acc : ℚ), 0 ≤ acc →
      combos.foldl
          (fun acc s => if weightSum s ≤ W ∧ acc < valueSum s then valueSum s else acc)
          acc
        = max acc
            (listMax ((combos.filter fun s => decide (weightSum s ≤ W)).map valueSum)) := by
  intro combos
  induction combos with
  | nil =>
    intro acc hacc
    simp only [List.foldl_nil, List.filter_nil, List.map_nil, listMax_nil]
    exact (max_eq_left hacc).symm
  | cons s rest IH =>
    intro acc hacc
    by_cases hws : weightSum s ≤ W
    · have hstep :
          (if weightSum s ≤ W ∧ acc < valueSum s then valueSum s else acc)
            = max acc (valueSum s) := by
        rcases le_or_lt (valueSum s) acc with h | h
        · rw [if_neg fun hc => absurd hc.2 (not_lt.mpr h), max_eq_left h]
        · rw [if_pos ⟨hws, h⟩, max_eq_right h.le]
      rw [List.foldl_cons, hstep, IH _ (le_trans hacc (le_max_left _ _)),
        List.filter_cons_of_pos (by simpa using hws), List.map_cons, listMax_cons,
        max_assoc]
    · have hstep :
          (if weightSum s ≤ W ∧ acc < valueSum s then valueSum s else acc) = acc :=
        if_neg fun hc => hws hc.1
      rw [List.foldl_cons, hstep, IH _ hacc,
        List.filter_cons_of_neg (by simpa using hws)]

/-- `maximum_value_naive` as a plain maximum over its combination list. -/
lemma naive_eq_listMax (orders : List Order) (W : ℕ) :
    maximum_value_naive orders W =
      listMax
        (((((List.range' 1 (orders.filter fun o => ! decide (o.weight > W)).length).reverse).flatMap
                (fun len => (orders.filter fun o => ! decide (o.weight > W)).sublistsLen len)).filter
              fun s => decide (weightSum s ≤ W)).map valueSum) := by
  have h := naiveFold_eq W
    (((List.range' 1 (orders.filter fun o => ! decide (o.weight > W)).length).reverse).flatMap
      (fun len => (orders.filter fun o => ! decide (o.weight > W)).sublistsLen len))
    0 le_rfl
  rw [max_eq_right (listMax_nonneg _)] at h
  exact h

/-- The combination scan of `maximum_value_naive` enumerates exactly the
non-empty sublists of the filtered order list. -/
lemma mem_naiveCombos {fl s : List Order} :
    s ∈ ((List.range' 1 fl.length).reverse).flatMap (fun len => fl.sublistsLen len)
      ↔ s <+ fl ∧ s ≠ [] := by
  rw [List.mem_flatMap]
  constructor
  · rintro ⟨len, hlen, hs⟩
    have h := List.mem_sublistsLen.mp hs
    refine ⟨h.1, ?_⟩
    rw [List.mem_reverse, List.mem_range'] at hlen
    obtain ⟨k, _, rfl⟩ := hlen
    intro hnil
    have h2 := h.2
    rw [hnil] at h2
    simp only [List.length_nil] at h2
    omega
  · rintro ⟨hs, hne⟩
    refine ⟨s.length, ?_, List.mem_sublistsLen.mpr ⟨hs, rfl⟩⟩
    rw [List.mem_reverse, List.mem_range']
    have h1 : 0 < s.length := List.length_pos.mpr hne
    have h2 : s.length ≤ fl.length := hs.length_le
    exact ⟨s.length - 1, by omega, by omega⟩

/-- The naive solver returns the knapsack optimum, with no hypotheses at
all: dropping the empty batch (value 0, the scan floor) and the too-heavy
orders (they fit in no feasible batch) never changes the maximum. -/
lemma naive_eq_bestValue (orders : List Order) (W : ℕ) :
    maximum_value_naive orders W = bestValue orders W := by
  rw [naive_eq_listMax]
  refine LE.le.antisymm ?_ ?_
  · apply listMax_le (bestValue_nonneg _ _)
    intro x hx
    obtain ⟨s, hsmem, rfl⟩ := List.mem_map.mp hx
    have h := List.mem_filter.mp hsmem
    have hcom := (mem_naiveCombos.mp h.1).1
    exact valueSum_le_bestValue (hcom.trans (List.filter_sublist _))
      (by simpa using h.2)
  · apply bestValue_le (listMax_nonneg _)
    intro s hs hws
    rcases eq_or_ne s [] with rfl | hne
    · rw [valueSum_nil]
      exact listMax_nonneg _
    · apply le_listMax_of_mem
      apply List.mem_map.mpr
      refine ⟨s, List.mem_filter.mpr ⟨?_, by simpa using hws⟩, rfl⟩
      apply mem_naiveCombos.mpr
      refine ⟨?_, hne⟩
      have hall : ∀ o ∈ s, (fun o => ! decide (o.weight > W)) o = true := by
        intro o ho
        have hle : o.weight ≤ weightSum s :=
          List.le_sum_of_mem (List.mem_map_of_mem Order.weight ho)
        simp only [Bool.not_eq_true', decide_eq_false_iff_not, gt_iff_lt, not_lt]
        omega
      have hsub := hs.filter (fun o => ! decide (o.weight > W))
      rwa [List.filter_eq_self.mpr hall] at hsub

/-- With non-negative values and positive weights, the memoized solver and
the naive solver agree (both compute the knapsack optimum). -/
lemma memoized_eq_naive {orders : List Order} (W : ℕ)
    (hv : ∀ o ∈ orders, 0 ≤ o.value) (hw : ∀ o ∈ orders, 0 < o.weight) :
    maximum_value_dynamic_solution_memoized orders W = maximum_value_naive orders W := by
  rw [memoized_eq_bestValue W hv hw, naive_eq_bestValue]

/-! ### Structural facts about the recurrence -/

/-- One-step unfolding of `mPure` on a non-empty row. -/
lemma mPure_succ (orders : List Order) (i j : ℕ) :
    mPure orders (i + 1) j =
      if j = 0 then 0
      else if wt orders (i + 1) > j then mPure orders i j
      else
        max (mPure orders i j)
          (mPure orders i (j - wt orders (i + 1)) + vl orders (i + 1)) := rfl

/-- A larger budget never hurts. -/
lemma mPure_mono_budget (orders : List Order) :
    ∀ i {j1 j2 : ℕ}, j1 ≤ j2 → mPure orders i j1 ≤ mPure orders i j2 := by
  intro i
  induction i with
  | zero => intro j1 j2 _; simp [mPure]
  | succ i IH =>
    intro j1 j2 h
    rw [mPure_succ, mPure_succ]
    by_cases h1 : j1 = 0
    · rw [if_pos h1]
      by_cases h2 : j2 = 0
      · rw [if_pos h2]
      · rw [if_neg h2]
        split
        · exact mPure_nonneg orders i j2
        · exact le_trans (mPure_nonneg orders i j2) (le_max_left _ _)
    · rw [if_neg h1, if_neg (by omega : j2 ≠ 0)]
      by_cases hw2 : wt orders (i + 1) > j2
      · rw [if_pos (by omega : wt orders (i + 1) > j1), if_pos hw2]
        exact IH h
      · rw [if_neg hw2]
        by_cases hw1 : wt orders (i + 1) > j1
        · rw [if_pos hw1]
          exact le_trans (IH h) (le_max_left _ _)
        · rw [if_neg hw1]
          refine max_le_max (IH h) (add_le_add_right (IH ?_) _)
          omega

/-- `mPure` only inspects the first `i` orders: two lists that agree there
give the same row `i`. -/
lemma mPure_agree {l1 l2 : List Order} :
    ∀ i, (∀ k, k < i → l1.getD k ⟨0, 0, none⟩ = l2.getD k ⟨0, 0, none⟩) →
      ∀ j, mPure l1 i j = mPure l2 i j := by
  intro i
  induction i with
  | zero => intro _ j; simp [mPure]
  | succ i IH =>
    intro h j
    have hwt : wt l1 (i + 1) = wt l2 (i + 1) := by
      unfold wt
      simp only [Nat.add_sub_cancel]
      rw [h i (Nat.lt_succ_self i)]
    have hvl : vl l1 (i + 1) = vl l2 (i + 1) := by
      unfold vl
      simp only [Nat.add_sub_cancel]
      rw [h i (Nat.lt_succ_self i)]
    have hpre : ∀ k, k < i → l1.getD k ⟨0, 0, none⟩ = l2.getD k ⟨0, 0, none⟩ :=
      fun k hk => h k (hk.trans (Nat.lt_succ_self i))
    rw [mPure_succ, mPure_succ, hwt, hvl, IH hpre j, IH hpre (j - wt l2 (i + 1))]

/-- Allowing one more order never hurts. -/
lemma mPure_le_succ (orders : List Order) (i j : ℕ) :
    mPure orders i j ≤ mPure orders (i + 1) j := by
  rw [mPure_succ]
  by_cases hj : j = 0
  · rw [if_pos hj, hj, mPure_budget_zero]
  · rw [if_neg hj]
    by_cases hw : wt orders (i + 1) > j
    · rw [if_pos hw]
    · rw [if_neg hw]
      exact le_max_left _ _

/-- If every order is heavier than the whole budget, every cell in range is
zero. -/
lemma mPure_all_heavy {orders : List Order} {W : ℕ}
    (h : ∀ o ∈ orders, W < o.weight) :
    ∀ i, i ≤ orders.length → ∀ j, j ≤ W → mPure orders i j = 0 := by
  intro i
  induction i with
  | zero => intro _ j _; simp [mPure]
  | succ i IH =>
    intro hle j hj
    have hlt : i < orders.length := hle
    rw [mPure_succ]
    by_cases h0 : j = 0
    · rw [if_pos h0]
    · rw [if_neg h0]
      have hw : wt orders (i + 1) > j := by
        have hmem : orders.getD i ⟨0, 0, none⟩ ∈ orders := by
          rw [List.getD_eq_getElem orders _ hlt]
          exact List.getElem_mem hlt
        have := h _ hmem
        unfold wt
        simp only [Nat.add_sub_cancel]
        omega
      rw [if_pos hw]
      exact IH hlt.le j hj

/-! ### The greedy solver: totality, frame and lower-bound facts -/

/-- The per-order ratio update, on success. -/
def withRatio (o : Order) : Order :=
  { o with ratio := some (o.value / (o.weight : ℚ)) }

/-- When no retained order has weight 0, the ratio-updating comprehension
succeeds and tags every order. -/
lemma setRatios_eq_map {l : List Order} (h : ∀ o ∈ l, o.weight ≠ 0) :
    setRatios l = some (l.map withRatio) := by
  induction l with
  | nil => rfl
  | cons o rest IH =>
    have ho : o.weight ≠ 0 := h o (List.mem_cons_self o rest)
    rw [List.map_cons]
    show (match setRatio o, setRatios rest with
      | some o', some rest' => some (o' :: rest')
      | _, _ => none) = _
    rw [IH fun x hx => h x (List.mem_cons_of_mem o hx), setRatio, if_neg ho]
    rfl

/-- Conversely, a successful ratio update pins down the output list and
forces every input weight to be non-zero. -/
lemma setRatios_some {l l' : List Order} (h : setRatios l = some l') :
    l' = l.map withRatio := by
  induction l generalizing l' with
  | nil =>
    simp only [setRatios, Option.some.injEq] at h
    rw [← h, List.map_nil]
  | cons o rest IH =>
    rw [setRatios] at h
    cases hso : setRatio o with
    | none => rw [hso] at h; cases h
    | some o' =>
      cases hsr : setRatios rest with
      | none => rw [hso, hsr] at h; cases h
      | some rest' =>
        rw [hso, hsr] at h
        simp only [Option.some.injEq] at h
        rw [setRatio] at hso
        by_cases hw : o.weight = 0
        · rw [if_pos hw] at hso; cases hso
        · rw [if_neg hw] at hso
          simp only [Option.some.injEq] at hso
          rw [← h, List.map_cons, ← hso, IH hsr]
          rfl

lemma withRatio_value (o : Order) : (withRatio o).value = o.value := rfl

lemma withRatio_weight (o : Order) : (withRatio o).weight = o.weight := rfl

lemma valueSum_map_withRatio (l : List Order) :
    valueSum (l.map withRatio) = valueSum l := by
  unfold valueSum
  rw [List.map_map]
  exact congrArg List.sum (List.map_congr_left fun o _ => rfl)

lemma weightSum_map_withRatio (l : List Order) :
    weightSum (l.map withRatio) = weightSum l := by
  unfold weightSum
  rw [List.map_map]
  exact congrArg List.sum (List.map_congr_left fun o _ => rfl)

lemma valueSum_perm {l1 l2 : List Order} (h : l1 ~ l2) :
    valueSum l1 = valueSum l2 :=
  (h.map Order.value).sum_eq

lemma weightSum_perm {l1 l2 : List Order} (h : l1 ~ l2) :
    weightSum l1 = weightSum l2 :=
  (h.map Order.weight).sum_eq

/-- The accumulation loop only ever appends: the result extends the already
chosen batch by a sub-selection of the remaining orders, in order. -/
lemma greedyLoop_shape (W : ℕ) :
    ∀ (l acc : List Order), ∃ s, greedyLoop W acc l = acc ++ s ∧ s <+ l := by
  intro l
  induction l with
  | nil => intro acc; exact ⟨[], by simp [greedyLoop]⟩
  | cons o rest IH =>
    intro acc
    show ∃ s, (if weightSum acc = W then acc
      else if weightSum acc + o.weight > W then greedyLoop W acc rest
      else greedyLoop W (acc ++ [o]) rest) = acc ++ s ∧ s <+ o :: rest
    by_cases hstop : weightSum acc = W
    · exact ⟨[], by rw [if_pos hstop, List.append_nil], List.nil_sublist _⟩
    · rw [if_neg hstop]
      by_cases hskip : weightSum acc + o.weight > W
      · obtain ⟨s, hs1, hs2⟩ := IH acc
        exact ⟨s, by rw [if_pos hskip, hs1], hs2.cons o⟩
      · obtain ⟨s, hs1, hs2⟩ := IH (acc ++ [o])
        refine ⟨o :: s, ?_, List.cons_sublist_cons.mpr hs2⟩
        rw [if_neg hskip, hs1, List.append_assoc]
        rfl

/-- The accumulation loop respects the weight limit. -/
lemma greedyLoop_weight (W : ℕ) :
    ∀ (l acc : List Order), weightSum acc ≤ W →
      weightSum (greedyLoop W acc l) ≤ W := by
  intro l
  induction l with
  | nil => intro acc h; exact h
  | cons o rest IH =>
    intro acc h
    show weightSum (if weightSum acc = W then acc
      else if weightSum acc + o.weight > W then greedyLoop W acc rest
      else greedyLoop W (acc ++ [o]) rest) ≤ W
    by_cases hstop : weightSum acc = W
    · rw [if_pos hstop]; exact h
    · rw [if_neg hstop]
      by_cases hskip : weightSum acc + o.weight > W
      · rw [if_pos hskip]; exact IH acc h
      · rw [if_neg hskip]
        refine IH (acc ++ [o]) ?_
        rw [weightSum_append, weightSum_cons, weightSum_nil]
        omega

/-- Whatever value the greedy solver returns is the total value of some
feasible sub-batch of the input, hence at most the knapsack optimum. -/
lemma greedy_le_bestValue {orders : List Order} {W : ℕ} {g : ℚ}
    (hg : maximum_value_greedy_approx orders W = some g) :
    g ≤ bestValue orders W := by
  unfold maximum_value_greedy_approx at hg
  by_cases hfl : (orders.filter fun o => ! decide (o.weight > W)).length = 0
  · rw [if_pos hfl] at hg
    simp only [Option.some.injEq] at hg
    rw [← hg]
    exact bestValue_nonneg orders W
  · rw [if_neg hfl] at hg
    cases hsr : setRatios (orders.filter fun o => ! decide (o.weight > W)) with
    | none => rw [hsr] at hg; cases hg
    | some updated =>
      rw [hsr] at hg
      dsimp only at hg
      have hupd := setRatios_some hsr
      cases hsort : List.insertionSort ratioGE updated with
      | nil =>
        rw [hsort] at hg
        simp only [Option.some.injEq] at hg
        rw [← hg]
        exact bestValue_nonneg orders W
      | cons first rest =>
        rw [hsort] at hg
        simp only [Option.some.injEq] at hg
        subst hg
        have hperm : first :: rest ~ updated := by
          rw [← hsort]
          exact List.perm_insertionSort ratioGE updated
        have hfirstmem : first ∈ updated := hperm.subset (List.mem_cons_self first rest)
        have hfw : first.weight ≤ W := by
          rw [hupd] at hfirstmem
          obtain ⟨o, ho, rfl⟩ := List.mem_map.mp hfirstmem
          rw [withRatio_weight]
          have h2 := (List.mem_filter.mp ho).2
          simpa using h2
        obtain ⟨s, hs1, hs2⟩ := greedyLoop_shape W rest [first]
        have hsel : greedyLoop W [first] rest <+ first :: rest := by
          rw [hs1]
          exact List.cons_sublist_cons.mpr hs2
        have hwsel : weightSum (greedyLoop W [first] rest) ≤ W := by
          apply greedyLoop_weight
          rw [weightSum_cons, weightSum_nil]
          omega
        have hsub : greedyLoop W [first] rest <+~ updated :=
          Subperm.trans hsel.subperm hperm.subperm
        rw [hupd] at hsub
        obtain ⟨mid, hmidperm, hmidsub⟩ := hsub
        obtain ⟨mid', hmid'sub, rfl⟩ := List.sublist_map_iff.mp hmidsub
        have hv1 : valueSum (greedyLoop W [first] rest) = valueSum mid' := by
          rw [← valueSum_perm hmidperm, valueSum_map_withRatio]
        have hw1 : weightSum mid' = weightSum (greedyLoop W [first] rest) := by
          rw [← weightSum_map_withRatio mid', weightSum_perm hmidperm]
        rw [hv1]
        exact valueSum_le_bestValue (hmid'sub.trans (List.filter_sublist _))
          (by rw [hw1]; exact hwsel)

/-- When every order light enough to survive the filter has positive weight,
the greedy solver runs to completion and hands back a number. -/
lemma greedy_total {orders : List Order} {W : ℕ}
    (h : ∀ o ∈ orders, o.weight ≤ W → 0 < o.weight) :
    ∃ q, maximum_value_greedy_approx orders W = some q := by
  unfold maximum_value_greedy_approx
  by_cases hfl : (orders.filter fun o => ! decide (o.weight > W)).length = 0
  · exact ⟨0, by rw [if_pos hfl]⟩
  · rw [if_neg hfl]
    have hz : ∀ o ∈ orders.filter fun o => ! decide (o.weight > W), o.weight ≠ 0 := by
      intro o ho
      have h1 := List.mem_filter.mp ho
      have h2 : o.weight ≤ W := by simpa using h1.2
      have h3 := h o h1.1 h2
      omega
    rw [setRatios_eq_map hz]
    dsimp only
    cases hsort : List.insertionSort ratioGE
        ((orders.filter fun o => ! decide (o.weight > W)).map withRatio) with
    | nil => exact ⟨0, rfl⟩
    | cons first rest => exact ⟨valueSum (greedyLoop W [first] rest), rfl⟩

/-- The mutation pass of src line 92 as seen by the caller, on success:
orders heavier than the limit keep their dict unchanged, every other order
gains the `'ratio'` key. -/
lemma updateFold_eq_map {W : ℕ} :
    ∀ {l : List Order}, (∀ o ∈ l, o.weight ≤ W → 0 < o.weight) →
      l.foldr
          (fun o acc =>
            match (if decide (o.weight > W) then some o else setRatio o), acc with
            | some o', some rest' => some (o' :: rest')
            | _, _ => none)
          (some [])
        = some (l.map fun o => if o.weight > W then o else withRatio o) := by
  intro l
  induction l with
  | nil => intro _; rfl
  | cons o rest IH =>
    intro h
    rw [List.foldr_cons, IH fun x hx hw => h x (List.mem_cons_of_mem _ hx) hw,
      List.map_cons]
    by_cases hw : o.weight > W
    · simp [hw]
    · have h0 : o.weight ≠ 0 := by
        have := h o (List.mem_cons_self _ _) (by omega)
        omega
      simp [hw, setRatio, h0, withRatio]

/-- On success, the caller's list after the greedy call is exactly the
original list with the retained orders tagged by their ratio. -/
lemma ordersAfterGreedy_eq_map (orders : List Order) (W : ℕ)
    (h : ∀ o ∈ orders, o.weight ≤ W → 0 < o.weight) :
    ordersAfterGreedy orders W =
      some (orders.map fun o => if o.weight > W then o else withRatio o) := by
  unfold ordersAfterGreedy
  by_cases hfl : (orders.filter fun o => ! decide (o.weight > W)).length = 0
  · rw [if_pos hfl]
    have hall : ∀ o ∈ orders, o.weight > W := by
      rw [List.length_eq_zero, List.filter_eq_nil_iff] at hfl
      intro o ho
      have := hfl o ho
      simpa using this
    have hmap : (orders.map fun o => if o.weight > W then o else withRatio o)
        = orders.map id :=
      List.map_congr_left fun o ho => by rw [if_pos (hall o ho)]; rfl
    rw [hmap, List.map_id]
  · rw [if_neg hfl]
    exact updateFold_eq_map h

/-- The greedy result only depends on the filtered order list. -/
lemma greedy_congr {l1 l2 : List Order} (W : ℕ)
    (h : l1.filter (fun o => ! decide (o.weight > W))
      = l2.filter (fun o => ! decide (o.weight > W))) :
    maximum_value_greedy_approx l1 W = maximum_value_greedy_approx l2 W := by
  unfold maximum_value_greedy_approx
  rw [h]

/-- The three-order instance named by the spec for the greedy/exact gap. -/
def exBase : List Order := [⟨60, 10, none⟩, ⟨100, 20, none⟩, ⟨120, 30, none⟩]

/-- A padding order too heavy to matter at capacity 50. -/
def exHeavy : Order := ⟨0, 51, none⟩

lemma greedy_exBase : maximum_value_greedy_approx exBase 50 = some 160 := by
  norm_num [maximum_value_greedy_approx, exBase, setRatios, setRatio, ratioOf,
    ratioGE, List.insertionSort, List.orderedInsert, greedyLoop, weightSum, valueSum]

lemma filter_padded (t : ℕ) :
    (exBase ++ List.replicate t exHeavy).filter (fun o => ! decide (o.weight > 50))
      = exBase.filter (fun o => ! decide (o.weight > 50)) := by
  rw [List.filter_append]
  have h2 : (List.replicate t exHeavy).filter (fun o => ! decide (o.weight > 50))
      = [] := by
    rw [List.filter_eq_nil_iff]
    intro a ha
    rw [List.eq_of_mem_replicate ha]
    decide
  rw [h2, List.append_nil]

/-- Padding the spec's three-order instance with any number of over-heavy
orders leaves the greedy result at 160. -/
lemma greedy_padded (t : ℕ) :
    maximum_value_greedy_approx (exBase ++ List.replicate t exHeavy) 50
      = some 160 := by
  rw [greedy_congr 50 (filter_padded t)]
  exact greedy_exBase

/-- The recurrence ignores the heavy padding: the optimum stays 220. -/
lemma mPure_padded (t : ℕ) :
    mPure (exBase ++ List.replicate t exHeavy) (3 + t) 50 = 220 := by
  induction t with
  | zero => norm_num [exBase, mPure, wt, vl]
  | succ t IH =>
    have hlen : (exBase ++ List.replicate t exHeavy).length = 3 + t := by
      simp [exBase]
      omega
    have hps : exBase ++ List.replicate (t + 1) exHeavy
        = (exBase ++ List.replicate t exHeavy) ++ [exHeavy] := by
      rw [List.replicate_succ', ← List.append_assoc]
    rw [hps, show 3 + (t + 1) = (3 + t) + 1 from by omega, mPure_succ,
      if_neg (by omega : (50 : ℕ) ≠ 0)]
    have hwt : wt ((exBase ++ List.replicate t exHeavy) ++ [exHeavy]) ((3 + t) + 1)
        = 51 := by
      unfold wt
      simp only [Nat.add_sub_cancel]
      rw [List.getD_append_right _ _ _ _ hlen.le, hlen, Nat.sub_self]
      simp [exHeavy]
    rw [if_pos (by rw [hwt]; omega)]
    have hag : mPure ((exBase ++ List.replicate t exHeavy) ++ [exHeavy]) (3 + t) 50
        = mPure (exBase ++ List.replicate t exHeavy) (3 + t) 50 := by
      apply mPure_agree
      intro k hk
      exact List.getD_append _ _ _ _ (by omega)
    rw [hag]
    exact IH

/-- The dispatcher's value on the padded family: always the exact optimum. -/
lemma maximum_value_padded (t : ℕ) :
    maximum_value (exBase ++ List.replicate t exHeavy) 50 = 220 := by
  unfold maximum_value
  rw [memoized_eq_mPure]
  have hlen : (exBase ++ List.replicate t exHeavy).length = 3 + t := by
    simp [exBase]
    omega
  rw [hlen]
  exact mPure_padded t

/-! ### Claim theorems -/

/-- C1 counterexample: at the order list `[{value: 1, weight: 0}]` and
capacity 0, the memoized DP solver returns 0 (its `j <= 0` base case ignores
weight-0 orders once the budget is exhausted) while the brute-force solver
returns 1 (the weight-0 order fits any capacity), so the two solvers
disagree on an input with non-negative values and non-negative weights. -/
theorem naive_memoized_disagree_zero_weight :
    maximum_value_dynamic_solution_memoized [⟨1, 0, none⟩] 0 = 0 ∧
      maximum_value_naive [⟨1, 0, none⟩] 0 = 1 ∧
      maximum_value_dynamic_solution_memoized [⟨1, 0, none⟩] 0 ≠
        maximum_value_naive [⟨1, 0, none⟩] 0 := by
  have h1 : maximum_value_dynamic_solution_memoized [⟨1, 0, none⟩] 0 = 0 := by
    rw [memoized_eq_mPure]
    exact mPure_budget_zero _ _
  have h2 : maximum_value_naive [⟨1, 0, none⟩] 0 = 1 := by
    rw [naive_eq_bestValue]
    norm_num [bestValue, listMax, weightSum, valueSum]
  refine ⟨h1, h2, ?_⟩
  rw [h1, h2]
  norm_num

/-- C1 (amended): for every order list of at most 15 orders with
non-negative values and positive integer weights, and every non-negative
integer capacity, the memoized DP solver and the brute-force solver return
the same value (both compute the knapsack optimum). -/
theorem memoized_eq_naive_small (orders : List Order) (W : ℕ)
    (hlen : orders.length ≤ 15)
    (hv : ∀ o ∈ orders, 0 ≤ o.value) (hw : ∀ o ∈ orders, 0 < o.weight) :
    maximum_value_dynamic_solution_memoized orders W = maximum_value_naive orders W :=
  memoized_eq_naive W hv hw

/-- Witness for C1 (amended) at a concrete two-order instance. -/
theorem memoized_eq_naive_small_witness :
    maximum_value_dynamic_solution_memoized [⟨1, 1, none⟩, ⟨2, 1, none⟩] 1
      = maximum_value_naive [⟨1, 1, none⟩, ⟨2, 1, none⟩] 1 :=
  memoized_eq_naive_small [⟨1, 1, none⟩, ⟨2, 1, none⟩] 1 (by decide) (by decide)
    (by decide)

/-- C2 counterexample: no threshold can make the dispatcher switch to the
greedy solver on large inputs, because `maximum_value` always returns the
memoized DP result (the greedy branch is commented out) and for every size
there is an input of that size on which the two results differ (the spec's
three-order gap instance padded with over-heavy orders: DP gives 220, the
greedy solver gives 160). -/
theorem no_dispatch_threshold :
    ¬ ∃ t : ℕ,
        (∀ (orders : List Order) (W : ℕ), t < orders.length →
          some (maximum_value orders W) = maximum_value_greedy_approx orders W) ∧
        (∀ (orders : List Order) (W : ℕ), orders.length ≤ t →
          maximum_value orders W = maximum_value_dynamic_solution_memoized orders W) := by
  rintro ⟨t, h1, -⟩
  have hlen : t < (exBase ++ List.replicate t exHeavy).length := by
    simp [exBase]
    omega
  have h2 := h1 (exBase ++ List.replicate t exHeavy) 50 hlen
  rw [maximum_value_padded t, greedy_padded t] at h2
  have h3 := Option.some.inj h2
  norm_num at h3

/-- C2 (amended): the dispatcher `maximum_value` always returns the memoized
DP result; the greedy large-scale branch and its size threshold exist only
as commented-out code, so no threshold (configurable or otherwise) is
active. -/
theorem maximum_value_always_memoized (orders : List Order) (W : ℕ) :
    maximum_value orders W = maximum_value_dynamic_solution_memoized orders W := rfl

/-- C3: on the canonical scenario (orders valued 10/40/30/50 with weights
5/4/6/3, capacity 10) the dispatcher returns exactly 90. -/
theorem maximum_value_canonical :
    maximum_value [⟨10, 5, none⟩, ⟨40, 4, none⟩, ⟨30, 6, none⟩, ⟨50, 3, none⟩] 10
      = 90 := by
  unfold maximum_value
  rw [memoized_eq_mPure]
  norm_num [mPure, wt, vl]

/-- C4: whenever the greedy solver returns a value on an order list with
non-negative values and positive weights, that value is at most the memoized
DP optimum; and on the spec's three-order instance at capacity 50 the
inequality is strict: greedy returns 160, the DP optimum is 220. -/
theorem greedy_le_memoized :
    (∀ (orders : List Order) (W : ℕ),
        (∀ o ∈ orders, 0 ≤ o.value) → (∀ o ∈ orders, 0 < o.weight) →
        ∀ g, maximum_value_greedy_approx orders W = some g →
          g ≤ maximum_value_dynamic_solution_memoized orders W) ∧
      maximum_value_greedy_approx exBase 50 = some 160 ∧
      maximum_value_dynamic_solution_memoized exBase 50 = 220 ∧ (160 : ℚ) < 220 := by
  refine ⟨?_, greedy_exBase, ?_, by norm_num⟩
  · intro orders W hv hw g hg
    rw [memoized_eq_bestValue W hv hw]
    exact greedy_le_bestValue hg
  · rw [memoized_eq_mPure]
    norm_num [exBase, mPure, wt, vl]

/-- Witness for C4's universal part, at the spec's instance. -/
theorem greedy_le_memoized_witness :
    (160 : ℚ) ≤ maximum_value_dynamic_solution_memoized exBase 50 :=
  greedy_le_memoized.1 exBase 50 (by decide) (by decide) 160 greedy_le_memoized.2.1

/-- C5 counterexample: the greedy solver is not free of side effects: after
`maximum_value_greedy_approx [{value: 1, weight: 1}] 1`, the caller's single
order dict has gained a `ratio` key (src line 92 calls `order.update` on the
very dicts the caller's list holds), so the input records are modified. -/
theorem greedy_mutates_orders :
    ordersAfterGreedy [⟨1, 1, none⟩] 1 ≠ some [⟨1, 1, none⟩] := by
  rw [ordersAfterGreedy_eq_map _ _ (by decide)]
  simp [withRatio]

/-- C5 (amended): `maximum_value`, `maximum_value_naive` and
`maximum_value_dynamic_solution_memoized` only read their input (they are
modelled as pure functions of it), but `maximum_value_greedy_approx` mutates
it: on inputs where every retained order has positive weight, each order
that passes the weight filter gains a `ratio` field, while every order's
`value` and `weight` fields are left unchanged. -/
theorem greedy_frame_effect (orders : List Order) (W : ℕ)
    (h : ∀ o ∈ orders, o.weight ≤ W → 0 < o.weight) :
    ordersAfterGreedy orders W =
        some (orders.map fun o => if o.weight > W then o else withRatio o) ∧
      (orders.map fun o => if o.weight > W then o else withRatio o).map
          (fun o => (o.value, o.weight))
        = orders.map fun o => (o.value, o.weight) := by
  refine ⟨ordersAfterGreedy_eq_map orders W h, ?_⟩
  rw [List.map_map]
  apply List.map_congr_left
  intro o _
  dsimp only [Function.comp]
  split <;> rfl

/-- Witness for C5 (amended) at a concrete one-order instance. -/
theorem greedy_frame_effect_witness :
    ordersAfterGreedy [⟨1, 1, none⟩] 1 =
        some (([⟨1, 1, none⟩] : List Order).map
          fun o => if o.weight > 1 then o else withRatio o) ∧
      ((([⟨1, 1, none⟩] : List Order).map
            fun o => if o.weight > 1 then o else withRatio o).map
          (fun o => (o.value, o.weight))
        = ([⟨1, 1, none⟩] : List Order).map fun o => (o.value, o.weight)) :=
  greedy_frame_effect [⟨1, 1, none⟩] 1 (by decide)

/-- C6 counterexample: an order of weight 0 always passes the weight filter,
and the ratio computation `order['value']/order['weight']` then divides by
zero: `maximum_value_greedy_approx [{value: 1, weight: 0}] 5` raises
`ZeroDivisionError` (modelled as `none`) instead of returning a number. -/
theorem greedy_zero_weight_raises :
    maximum_value_greedy_approx [⟨1, 0, none⟩] 5 = none := by
  norm_num [maximum_value_greedy_approx, setRatios, setRatio]

/-- C6 (amended): for every order list and capacity in which every order
light enough to survive the weight filter has positive weight, the greedy
solver returns a numeric value (no division by zero is reachable). -/
theorem greedy_returns_value (orders : List Order) (W : ℕ)
    (h : ∀ o ∈ orders, o.weight ≤ W → 0 < o.weight) :
    ∃ q, maximum_value_greedy_approx orders W = some q :=
  greedy_total h

/-- Witness for C6 (amended). -/
theorem greedy_returns_value_witness :
    ∃ q, maximum_value_greedy_approx [⟨2, 1, none⟩] 3 = some q :=
  greedy_returns_value [⟨2, 1, none⟩] 3 (by decide)

/-- C7: the dispatcher's result is monotone in the capacity: a larger weight
budget never yields a smaller optimal value. -/
theorem maximum_value_mono_capacity (orders : List Order) (W1 W2 : ℕ)
    (hv : ∀ o ∈ orders, 0 ≤ o.value) (h : W1 ≤ W2) :
    maximum_value orders W1 ≤ maximum_value orders W2 := by
  unfold maximum_value
  rw [memoized_eq_mPure, memoized_eq_mPure]
  exact mPure_mono_budget orders orders.length h

/-- Witness for C7 at a concrete instance. -/
theorem maximum_value_mono_capacity_witness :
    maximum_value [⟨3, 2, none⟩] 1 ≤ maximum_value [⟨3, 2, none⟩] 4 :=
  maximum_value_mono_capacity [⟨3, 2, none⟩] 1 4 (by decide) (by omega)

/-- C8: appending one more order (of non-negative value) never decreases the
dispatcher's result. -/
theorem maximum_value_mono_orders (orders : List Order) (o : Order) (W : ℕ)
    (hval : 0 ≤ o.value) :
    maximum_value orders W ≤ maximum_value (orders ++ [o]) W := by
  unfold maximum_value
  rw [memoized_eq_mPure, memoized_eq_mPure, List.length_append]
  have hag : mPure orders orders.length W = mPure (orders ++ [o]) orders.length W := by
    apply mPure_agree
    intro k hk
    exact (List.getD_append _ _ _ _ hk).symm
  rw [hag, show orders.length + [o].length = orders.length + 1 from by simp]
  exact mPure_le_succ _ _ _

/-- Witness for C8 at a concrete instance. -/
theorem maximum_value_mono_orders_witness :
    maximum_value [⟨1, 1, none⟩] 2 ≤ maximum_value ([⟨1, 1, none⟩] ++ [⟨5, 1, none⟩]) 2 :=
  maximum_value_mono_orders [⟨1, 1, none⟩] ⟨5, 1, none⟩ 2 (by decide)

/-- C9: the zero cases of the dispatcher: no orders give 0, a zero capacity
gives 0, and orders that are all strictly heavier than the capacity give 0. -/
theorem maximum_value_zero_cases :
    (∀ W : ℕ, maximum_value [] W = 0) ∧
      (∀ orders : List Order, maximum_value orders 0 = 0) ∧
      (∀ (orders : List Order) (W : ℕ), (∀ o ∈ orders, W < o.weight) →
        maximum_value orders W = 0) := by
  refine ⟨?_, ?_, ?_⟩
  · intro W
    unfold maximum_value
    rw [memoized_eq_mPure]
    simp [mPure]
  · intro orders
    unfold maximum_value
    rw [memoized_eq_mPure]
    exact mPure_budget_zero _ _
  · intro orders W h
    unfold maximum_value
    rw [memoized_eq_mPure]
    exact mPure_all_heavy h orders.length le_rfl W le_rfl

/-- Witness for C9's conditional part: one order heavier than the capacity. -/
theorem maximum_value_zero_cases_witness :
    maximum_value [⟨5, 7, none⟩] 3 = 0 :=
  maximum_value_zero_cases.2.2 [⟨5, 7, none⟩] 3 (by decide)

/-- C10: the `-1` sentinel never escapes: the memoized solver's top-level
call fills table cell `(n, W)` with the (non-negative) value of the
recurrence, so the returned value is non-negative and is never `-1`. -/
theorem memoized_never_sentinel (orders : List Order) (W : ℕ)
    (hv : ∀ o ∈ orders, 0 ≤ o.value) :
    0 ≤ maximum_value_dynamic_solution_memoized orders W ∧
      maximum_value_dynamic_solution_memoized orders W ≠ -1 := by
  rw [memoized_eq_mPure]
  exact ⟨mPure_nonneg orders _ W, mPure_ne_sentinel orders _ W⟩

/-- Witness for C10 at a concrete instance. -/
theorem memoized_never_sentinel_witness :
    0 ≤ maximum_value_dynamic_solution_memoized [⟨1, 1, none⟩] 1 ∧
      maximum_value_dynamic_solution_memoized [⟨1, 1, none⟩] 1 ≠ -1 :=
  memoized_never_sentinel [⟨1, 1, none⟩] 1 (by decide)
